import Mathlib

/-!
Verification of the blobscan indexer core against its natural-language
specification.  The Rust sources are shallowly embedded: pure functions
become Lean functions, stateful loops become fuel-based recursions, the
network environment (beacon node, execution node, blobscan sink) becomes an
explicit record of deterministic response functions, and machine integers
become `Nat` (all slot arithmetic in the sources stays far below `u32::MAX`
on the inputs considered, and overflow sites are noted where relevant).
-/

namespace Blobscan

/-! ## Decimal and hexadecimal digit machinery

Used to embed `u32::to_string` / `str::parse::<u32>` (Rust core) and the
`format "0x{:x}"` rendering plus `H256::from_str` (fixed-hash) that
`BlockId::to_detailed_string` and `FromStr for BlockId` rely on
(src/clients/beacon/types.rs).  Little-endian digit lists are produced with
explicit fuel so that everything reduces by `rfl`/`decide`. -/

/-- Little-endian base-`b` digits of `n`, with explicit fuel (taking
`fuel = n` always suffices for `b ≥ 2`). -/
def natDigitsLE (b : Nat) : Nat → Nat → List Nat
  | 0, _ => []
  | fuel + 1, n => if n = 0 then [] else n % b :: natDigitsLE b fuel (n / b)

/-- Value of a little-endian base-`b` digit list. -/
def ofDigitsLE (b : Nat) : List Nat → Nat
  | [] => 0
  | d :: ds => d + b * ofDigitsLE b ds

theorem ofDigitsLE_natDigitsLE (b : Nat) (hb : 2 ≤ b) :
    ∀ fuel n, n ≤ fuel → ofDigitsLE b (natDigitsLE b fuel n) = n := by
  intro fuel
  induction fuel with
  | zero => intro n hn; interval_cases n; rfl
  | succ f ih =>
    intro n hn
    by_cases h0 : n = 0
    · subst h0; simp [natDigitsLE, ofDigitsLE]
    · have hdiv : n / b < n := Nat.div_lt_self (Nat.pos_of_ne_zero h0) hb
      have hle : n / b ≤ f := by omega
      simp only [natDigitsLE, h0, if_false, ofDigitsLE]
      rw [ih (n / b) hle]
      exact Nat.mod_add_div n b

theorem natDigitsLE_lt (b : Nat) (hb : 0 < b) :
    ∀ fuel n d, d ∈ natDigitsLE b fuel n → d < b := by
  intro fuel
  induction fuel with
  | zero => intro n d hd; simp [natDigitsLE] at hd
  | succ f ih =>
    intro n d hd
    by_cases h0 : n = 0
    · subst h0; simp [natDigitsLE] at hd
    · simp only [natDigitsLE, h0, if_false, List.mem_cons] at hd
      rcases hd with h | h
      · subst h; exact Nat.mod_lt n hb
      · exact ih _ _ h

theorem natDigitsLE_length_le (b : Nat) (hb : 2 ≤ b) :
    ∀ k fuel n, n < b ^ k → (natDigitsLE b fuel n).length ≤ k := by
  intro k
  induction k with
  | zero =>
    intro fuel n hn
    simp only [pow_zero, Nat.lt_one_iff] at hn
    subst hn
    cases fuel <;> simp [natDigitsLE]
  | succ k ih =>
    intro fuel n hn
    cases fuel with
    | zero => simp [natDigitsLE]
    | succ f =>
      by_cases h0 : n = 0
      · subst h0; simp [natDigitsLE]
      · simp only [natDigitsLE, h0, if_false, List.length_cons]
        have : n / b < b ^ k := by
          apply Nat.div_lt_of_lt_mul
          calc n < b ^ (k + 1) := hn
          _ = b * b ^ k := by ring
        exact Nat.succ_le_succ (ih f (n / b) this)

/-- Character for a digit value `< 16` (decimal digits then lowercase hex). -/
def digitChar (d : Nat) : Char :=
  if d < 10 then Char.ofNat (48 + d) else Char.ofNat (87 + d)

/-- Is `c` an ASCII decimal digit?  (Embeds `char::is_ascii_digit`, the
check `str::parse::<u32>` effectively performs.) -/
def isDecDigit (c : Char) : Bool :=
  48 ≤ c.toNat && c.toNat ≤ 57

/-- Is `c` an ASCII hexadecimal digit (either case)? -/
def isHexDigit (c : Char) : Bool :=
  (48 ≤ c.toNat && c.toNat ≤ 57) || (97 ≤ c.toNat && c.toNat ≤ 102) ||
    (65 ≤ c.toNat && c.toNat ≤ 70)

/-- Numeric value of a decimal digit character. -/
def decVal (c : Char) : Nat := c.toNat - 48

/-- Numeric value of a hexadecimal digit character (either case). -/
def hexVal (c : Char) : Nat :=
  if 48 ≤ c.toNat && c.toNat ≤ 57 then c.toNat - 48
  else if 97 ≤ c.toNat && c.toNat ≤ 102 then c.toNat - 87
  else if 65 ≤ c.toNat && c.toNat ≤ 70 then c.toNat - 55
  else 0

/-- Big-endian decimal value of a character list. -/
def decValue (cs : List Char) : Nat :=
  cs.foldl (fun a c => a * 10 + decVal c) 0

/-- Big-endian hexadecimal value of a character list. -/
def hexValue (cs : List Char) : Nat :=
  cs.foldl (fun a c => a * 16 + hexVal c) 0

theorem digitChar_dec_spec : ∀ d, d < 10 →
    isDecDigit (digitChar d) = true ∧ decVal (digitChar d) = d ∧
      digitChar d ≠ '+' ∧ digitChar d ≠ '-' ∧ digitChar d ≠ 'h' ∧
      digitChar d ≠ 'f' := by decide

theorem digitChar_hex_spec : ∀ d, d < 16 →
    isHexDigit (digitChar d) = true ∧ hexVal (digitChar d) = d := by decide

/-- Folding the big-endian digit evaluation over the reverse of a
little-endian digit list recovers the little-endian value, for base 10. -/
theorem decValue_reverse_map (le : List Nat) (h : ∀ d ∈ le, d < 10) :
    decValue ((le.reverse.map digitChar)) = ofDigitsLE 10 le := by
  induction le with
  | nil => rfl
  | cons d ds ih =>
    have hd : d < 10 := h d (List.mem_cons_self d ds)
    have hds : ∀ x ∈ ds, x < 10 := fun x hx => h x (List.mem_cons_of_mem d hx)
    simp only [List.reverse_cons, List.map_append, List.map_cons, List.map_nil,
      decValue, List.foldl_append, List.foldl_cons, List.foldl_nil]
    rw [show (ds.reverse.map digitChar).foldl (fun a c => a * 10 + decVal c) 0
        = decValue (ds.reverse.map digitChar) from rfl, ih hds]
    simp only [ofDigitsLE, (digitChar_dec_spec d hd).2.1]
    ring

/-- Same as `decValue_reverse_map` for base 16. -/
theorem hexValue_reverse_map (le : List Nat) (h : ∀ d ∈ le, d < 16) :
    hexValue ((le.reverse.map digitChar)) = ofDigitsLE 16 le := by
  induction le with
  | nil => rfl
  | cons d ds ih =>
    have hd : d < 16 := h d (List.mem_cons_self d ds)
    have hds : ∀ x ∈ ds, x < 16 := fun x hx => h x (List.mem_cons_of_mem d hx)
    simp only [List.reverse_cons, List.map_append, List.map_cons, List.map_nil,
      hexValue, List.foldl_append, List.foldl_cons, List.foldl_nil]
    rw [show (ds.reverse.map digitChar).foldl (fun a c => a * 16 + hexVal c) 0
        = hexValue (ds.reverse.map digitChar) from rfl, ih hds]
    simp only [ofDigitsLE, (digitChar_hex_spec d hd).2]
    ring

theorem ofDigitsLE_append_zeros (b : Nat) (le : List Nat) (k : Nat) :
    ofDigitsLE b (le ++ List.replicate k 0) = ofDigitsLE b le := by
  induction le with
  | nil =>
    simp only [List.nil_append]
    induction k with
    | zero => rfl
    | succ k ih => simp [List.replicate, ofDigitsLE, ih]
  | cons d ds ih => simp [ofDigitsLE, ih]

/-- Decimal digit characters of `n`, big-endian (embeds `u32::to_string`). -/
def decChars (n : Nat) : List Char :=
  if n = 0 then ['0'] else (natDigitsLE 10 n n).reverse.map digitChar

/-- The decimal string of `n` (embeds `u32::to_string` / `i.to_string()`). -/
def decString (n : Nat) : String := String.mk (decChars n)

/-- The 64-character zero-padded lowercase hex character list of `h`
(embeds `format "0x{:x}"` on an `H256`, which zero-pads to 64 nibbles). -/
def hexChars64 (h : Nat) : List Char :=
  let le := natDigitsLE 16 h h
  ((le ++ List.replicate (64 - le.length) 0).reverse.map digitChar)

theorem natDigitsLE_ne_nil (b fuel n : Nat) (hn : n ≠ 0) (hf : fuel ≠ 0) :
    natDigitsLE b fuel n ≠ [] := by
  cases fuel with
  | zero => exact absurd rfl hf
  | succ f => simp [natDigitsLE, hn]

/-! ## BlockId (src/clients/beacon/types.rs)

`BlockId` is the tagged union `Head | Finalized | Slot(u32) | Hash(H256)`.
Slots are modelled as `Nat` (well-formed when `< 2^32`), hashes as `Nat`
(well-formed when `< 2^256`). -/

inductive BlockId where
  | head : BlockId
  | finalized : BlockId
  | slot : Nat → BlockId
  | hash : Nat → BlockId
deriving DecidableEq, Repr

/-- Well-formedness of the `Nat` payloads: a slot fits in `u32`, a hash in
32 bytes (as the Rust types enforce by construction). -/
def BlockId.wfB : BlockId → Bool
  | .slot n => decide (n < 4294967296)
  | .hash h => decide (h < 2 ^ 256)
  | _ => true

/-- Embeds `BlockId::to_detailed_string` (types.rs lines 147-156): `"head"`,
`"finalized"`, the decimal of the slot, or `format "0x{:x}"` of the hash
(which zero-pads an `H256` to 64 lowercase hex digits). -/
def BlockId.toDetailedString : BlockId → String
  | .head => "head"
  | .finalized => "finalized"
  | .slot n => decString n
  | .hash h => String.mk ('0' :: 'x' :: hexChars64 h)

/-- Embeds the digit phase of `str::parse::<u32>`: non-empty, all ASCII
digits, value within `u32` range. -/
def parseDigitsU32 (ds : List Char) : Option Nat :=
  if ds ≠ [] ∧ ds.all isDecDigit then
    if decValue ds < 4294967296 then some (decValue ds) else none
  else none

/-- Embeds `str::parse::<u32>` (Rust core): an optional sign character
followed by digits; a `-` sign succeeds only on an all-zero digit string
(each `checked_sub` step must stay at zero). -/
def parseU32 (cs : List Char) : Option Nat :=
  match cs with
  | [] => none
  | c :: rest =>
    if c = '+' then parseDigitsU32 rest
    else if c = '-' then
      if rest ≠ [] ∧ rest.all (fun x => x = '0') then some 0 else none
    else parseDigitsU32 (c :: rest)

/-- Embeds `str::starts_with "0x"`. -/
def hexMarked : List Char → Bool
  | c1 :: c2 :: _ => c1 = '0' && c2 = 'x'
  | _ => false

/-- Embeds `H256::from_str` (fixed-hash): strip an optional `0x` marker,
then require exactly 64 hex digits of either case. -/
def parseH256 (cs : List Char) : Option Nat :=
  let ds := if hexMarked cs then cs.drop 2 else cs
  if ds.length = 64 ∧ ds.all isHexDigit then some (hexValue ds) else none

/-- Embeds `impl FromStr for BlockId` (types.rs lines 169-193): `"head"`,
then `"finalized"`, then a `u32`, then a `0x`-marked `H256`. -/
def parseBlockId (s : String) : Except String BlockId :=
  if s = "head" then .ok .head
  else if s = "finalized" then .ok .finalized
  else
    match parseU32 s.data with
    | some n => .ok (.slot n)
    | none =>
      if hexMarked s.data then
        match parseH256 s.data with
        | some h => .ok (.hash h)
        | none => .error "Invalid block ID hash"
      else .error "Invalid block ID"

theorem decChars_all_dec (n : Nat) :
    decChars n ≠ [] ∧ ∀ c ∈ decChars n, ∃ d, d < 10 ∧ c = digitChar d := by
  by_cases h0 : n = 0
  · subst h0
    refine ⟨by simp [decChars], ?_⟩
    intro c hc
    simp [decChars] at hc
    exact ⟨0, by omega, by rw [hc]; decide⟩
  · constructor
    · simp only [decChars, if_neg h0]
      intro hcon
      have := natDigitsLE_ne_nil 10 n n h0 h0
      simp only [List.map_eq_nil, List.reverse_eq_nil_iff] at hcon
      exact this hcon
    · intro c hc
      simp only [decChars, if_neg h0, List.mem_map, List.mem_reverse] at hc
      obtain ⟨d, hd, rfl⟩ := hc
      exact ⟨d, natDigitsLE_lt 10 (by omega) n n d hd, rfl⟩

theorem parseU32_decChars (n : Nat) (hn : n < 4294967296) :
    parseU32 (decChars n) = some n := by
  obtain ⟨hne, hdigs⟩ := decChars_all_dec n
  have hall : (decChars n).all isDecDigit = true := by
    rw [List.all_eq_true]
    intro c hc
    obtain ⟨d, hd, rfl⟩ := hdigs c hc
    exact (digitChar_dec_spec d hd).1
  have hval : decValue (decChars n) = n := by
    by_cases h0 : n = 0
    · subst h0; rfl
    · simp only [decChars, if_neg h0]
      rw [decValue_reverse_map _ (fun d hd => natDigitsLE_lt 10 (by omega) n n d hd)]
      exact ofDigitsLE_natDigitsLE 10 (by omega) n n (le_refl n)
  cases hcs : decChars n with
  | nil => exact absurd hcs hne
  | cons c rest =>
    have hcdig : ∃ d, d < 10 ∧ c = digitChar d := by
      apply hdigs; rw [hcs]; exact List.mem_cons_self c rest
    obtain ⟨d, hd, rfl⟩ := hcdig
    have spec := digitChar_dec_spec d hd
    rw [hcs] at hall hval
    simp only [parseU32, if_neg spec.2.2.1, if_neg spec.2.2.2.1, parseDigitsU32]
    rw [if_pos ⟨by simp, hall⟩, hval, if_pos hn]

theorem hexChars64_spec (h : Nat) (hh : h < 2 ^ 256) :
    (hexChars64 h).length = 64 ∧ (hexChars64 h).all isHexDigit = true ∧
      hexValue (hexChars64 h) = h := by
  have hlt : h < 16 ^ 64 := by
    have : (16 : Nat) ^ 64 = 2 ^ 256 := by norm_num
    omega
  have hlen : (natDigitsLE 16 h h).length ≤ 64 :=
    natDigitsLE_length_le 16 (by omega) 64 h h hlt
  have hmem : ∀ d ∈ natDigitsLE 16 h h ++ List.replicate (64 - (natDigitsLE 16 h h).length) 0,
      d < 16 := by
    intro d hd
    rcases List.mem_append.mp hd with hmem | hmem
    · exact natDigitsLE_lt 16 (by omega) h h d hmem
    · rw [List.eq_of_mem_replicate hmem]; omega
  refine ⟨?_, ?_, ?_⟩
  · simp only [hexChars64, List.length_map, List.length_reverse, List.length_append,
      List.length_replicate]
    omega
  · rw [List.all_eq_true]
    intro c hc
    simp only [hexChars64, List.mem_map, List.mem_reverse] at hc
    obtain ⟨d, hd, rfl⟩ := hc
    exact (digitChar_hex_spec d (hmem d hd)).1
  · simp only [hexChars64]
    rw [hexValue_reverse_map _ hmem, ofDigitsLE_append_zeros,
      ofDigitsLE_natDigitsLE 16 (by omega) h h (le_refl h)]

/-- C8: For every well-formed `BlockId` (`Head`, `Finalized`, `Slot n` with
`n` a `u32`, `Hash h` with `h` a 32-byte value), parsing the URL form
produced by `to_detailed_string` with `BlockId`'s `FromStr` yields back the
same `BlockId`: `parse (render id) = ok id`. -/
theorem c8_blockid_roundtrip (id : BlockId) (hwf : id.wfB = true) :
    parseBlockId id.toDetailedString = .ok id := by
  cases id with
  | head => rfl
  | finalized => rfl
  | slot n =>
    have hn : n < 4294967296 := by
      simpa [BlockId.wfB] using hwf
    have hparse := parseU32_decChars n hn
    obtain ⟨hne, hdigs⟩ := decChars_all_dec n
    have hnothead : decString n ≠ "head" := by
      intro hcon
      have hdata : decChars n = ['h', 'e', 'a', 'd'] := congrArg String.data hcon
      have : ('h' : Char) ∈ decChars n := by rw [hdata]; simp
      obtain ⟨d, hd, hchar⟩ := hdigs 'h' this
      exact (digitChar_dec_spec d hd).2.2.2.2.1 hchar.symm
    have hnotfin : decString n ≠ "finalized" := by
      intro hcon
      have hdata : decChars n = ['f', 'i', 'n', 'a', 'l', 'i', 'z', 'e', 'd'] :=
        congrArg String.data hcon
      have : ('f' : Char) ∈ decChars n := by rw [hdata]; simp
      obtain ⟨d, hd, hchar⟩ := hdigs 'f' this
      exact (digitChar_dec_spec d hd).2.2.2.2.2 hchar.symm
    simp only [BlockId.toDetailedString, parseBlockId, if_neg hnothead, if_neg hnotfin]
    have : (decString n).data = decChars n := rfl
    rw [this, hparse]
  | hash h =>
    have hh : h < 2 ^ 256 := by
      simpa [BlockId.wfB] using hwf
    obtain ⟨hlen, hhex, hval⟩ := hexChars64_spec h hh
    have hs : (String.mk ('0' :: 'x' :: hexChars64 h)).data
        = '0' :: 'x' :: hexChars64 h := rfl
    have hnothead : String.mk ('0' :: 'x' :: hexChars64 h) ≠ "head" := by
      intro hcon
      have := congrArg String.data hcon
      rw [hs] at this
      simp at this
    have hnotfin : String.mk ('0' :: 'x' :: hexChars64 h) ≠ "finalized" := by
      intro hcon
      have := congrArg String.data hcon
      rw [hs] at this
      simp at this
    have hparse : parseU32 ('0' :: 'x' :: hexChars64 h) = none := by
      have hxnot : isDecDigit 'x' = false := rfl
      simp only [parseU32, if_neg (by decide : ¬('0' : Char) = '+'),
        if_neg (by decide : ¬('0' : Char) = '-'), parseDigitsU32]
      rw [if_neg]
      intro hcon
      have := hcon.2
      simp only [List.all_cons] at this
      rw [hxnot] at this
      simp at this
    have hmark : hexMarked ('0' :: 'x' :: hexChars64 h) = true := by
      simp [hexMarked]
    have hp256 : parseH256 ('0' :: 'x' :: hexChars64 h) = some h := by
      simp only [parseH256, hmark, if_pos, List.drop_succ_cons, List.drop_zero]
      rw [if_pos ⟨hlen, hhex⟩, hval]
    simp only [BlockId.toDetailedString, parseBlockId, if_neg hnothead, if_neg hnotfin,
      hs, hparse, hmark, if_pos, hp256]

/-- Witness for C8 at a concrete hash and all hypotheses discharged. -/
theorem c8_blockid_roundtrip_witness :
    BlockId.wfB (.hash 51966) = true ∧
      parseBlockId (BlockId.toDetailedString (.hash 51966)) = .ok (.hash 51966) :=
  ⟨by decide, c8_blockid_roundtrip (.hash 51966) (by decide)⟩

/-! ## Retry harness (src/indexer/mod.rs lines 100-125, src/slots_processor/mod.rs
lines 85-111, 150-174, 250-275)

The repeated loop shape is
`loop { match op { Ok(v) => break v, Err(_) if retries < 5000 => { retries += 1;
sleep(delay); delay *= 2; if delay > 600 { delay = 600 } }, Err(e) => return Err(e) } }`.
It is embedded with `fuel = max_retries - retries` and the actual call indexed
by its attempt number; the log of sleep durations is returned alongside. -/

/-- Embeds `delay *= 2; if delay > max_delay { delay = max_delay }` with
`max_delay = 600` seconds. -/
def capDouble (d : Nat) : Nat := if d * 2 > 600 then 600 else d * 2

/-- Observable outcome of the retry loop: the returned value or final error,
the number of times the operation was invoked, and the sleeps performed
between invocations (in seconds). -/
structure RetryOut (ε α : Type) where
  result : Except ε α
  attempts : Nat
  sleeps : List Nat
deriving Repr

/-- The retry loop body; `fuel` is `max_retries` minus the retries already
made, `attempt` counts the invocations already made. -/
def retryGo (op : Nat → Except ε α) : Nat → Nat → Nat → RetryOut ε α
  | 0, _, attempt =>
    match op attempt with
    | .ok a => ⟨.ok a, attempt + 1, []⟩
    | .error e => ⟨.error e, attempt + 1, []⟩
  | fuel + 1, delay, attempt =>
    match op attempt with
    | .ok a => ⟨.ok a, attempt + 1, []⟩
    | .error _ =>
      let rest := retryGo op fuel (capDouble delay) (attempt + 1)
      ⟨rest.result, rest.attempts, delay :: rest.sleeps⟩

/-- The retry harness with the source parameters: `max_retries = 5000`,
initial delay 5 s. -/
def retryWithBackoff (op : Nat → Except ε α) : RetryOut ε α :=
  retryGo op 5000 5 0

theorem capDouble_closed (k : Nat) :
    capDouble (min (5 * 2 ^ k) 600) = min (5 * 2 ^ (k + 1)) 600 := by
  have hx : 1 ≤ 2 ^ k := Nat.one_le_two_pow
  have h2 : (5 : Nat) * 2 ^ (k + 1) = 5 * 2 ^ k * 2 := by ring
  rw [h2]
  generalize 5 * 2 ^ k = x at hx ⊢
  unfold capDouble
  split <;> omega

theorem retryGo_all_fail (op : Nat → Except ε α) (errSeq : Nat → ε)
    (hfail : ∀ n, op n = .error (errSeq n)) :
    ∀ fuel k attempt, retryGo op fuel (min (5 * 2 ^ k) 600) attempt =
      ⟨.error (errSeq (attempt + fuel)), attempt + fuel + 1,
        (List.range' k fuel).map (fun j => min (5 * 2 ^ j) 600)⟩ := by
  intro fuel
  induction fuel with
  | zero =>
    intro k attempt
    simp only [retryGo, hfail attempt]
    simp
  | succ f ih =>
    intro k attempt
    simp only [retryGo, hfail attempt]
    rw [capDouble_closed k, ih (k + 1) (attempt + 1)]
    have h1 : attempt + 1 + f = attempt + (f + 1) := by omega
    simp [List.range'_succ, h1]

/-- C9 (amended): for an operation failing at every attempt, the retry
wrapper terminates after exactly 5001 invocations (the initial attempt plus
`max_retries = 5000` retries), returns the last error, and the `j`-th sleep
between attempts is `min (5 * 2^j) 600` seconds — starting at 5 s, doubling
after each attempt, capped at 600 s. -/
theorem c9_retry_bound (op : Nat → Except ε α) (errSeq : Nat → ε)
    (hfail : ∀ n, op n = .error (errSeq n)) :
    retryWithBackoff op =
      ⟨.error (errSeq 5000), 5001, (List.range' 0 5000).map (fun j => min (5 * 2 ^ j) 600)⟩ := by
  have h := retryGo_all_fail op errSeq hfail 5000 0 0
  have h5 : (min (5 * 2 ^ 0) 600 : Nat) = 5 := by norm_num
  rw [h5] at h
  rw [retryWithBackoff, h]

/-- Counterexample to C9 as stated: a persistently failing operation is
invoked 5001 times, not at most `max_retries = 5000` times. -/
theorem c9_retry_bound_cex :
    (retryWithBackoff (fun _ => (.error 0 : Except Nat Unit))).attempts = 5001 ∧
      ¬ (retryWithBackoff (fun _ => (.error 0 : Except Nat Unit))).attempts ≤ 5000 := by
  have h := retryGo_all_fail (fun _ => (.error 0 : Except Nat Unit)) (fun _ => 0)
    (fun _ => rfl) 5000 0 0
  have h2 : (retryWithBackoff (fun _ => (.error 0 : Except Nat Unit))).attempts
      = 0 + 5000 + 1 := congrArg RetryOut.attempts h
  constructor
  · omega
  · omega

/-- Witness for C9 at a concrete always-failing operation. -/
theorem c9_retry_bound_witness :
    retryWithBackoff (fun _ => (.error 7 : Except Nat Unit)) =
      ⟨.error 7, 5001, (List.range' 0 5000).map (fun j => min (5 * 2 ^ j) 600)⟩ :=
  c9_retry_bound _ (fun _ => 7) (fun _ => rfl)

/-! ## Realtime head-event dispatch (src/indexer/mod.rs lines 349-374)

For each `head` event the handler builds `head_block_id = Slot(event.slot)`,
chooses `initial_block_id = start_block_id` on the first event (clearing the
`is_initial_sync_to_head` flag) and `head_block_id` afterwards, and calls
`synchronizer.run(initial_block_id, Slot(event.slot + 1))`.  The fold below
records the `(initial, final)` pair of every invocation, assuming each run
succeeds so the event loop continues. -/

def headInvocationsGo (startBlockId : BlockId) : Bool → List Nat → List (BlockId × BlockId)
  | _, [] => []
  | isInitial, s :: rest =>
    ((if isInitial then startBlockId else BlockId.slot s), BlockId.slot (s + 1))
      :: headInvocationsGo startBlockId false rest

/-- The synchronizer invocations produced by a sequence of head events (their
slots listed in arrival order), starting with `is_initial_sync_to_head = true`. -/
def headInvocations (startBlockId : BlockId) (events : List Nat) : List (BlockId × BlockId) :=
  headInvocationsGo startBlockId true events

theorem headInvocationsGo_length (startBlockId : BlockId) :
    ∀ (events : List Nat) (b : Bool),
      (headInvocationsGo startBlockId b events).length = events.length := by
  intro events
  induction events with
  | nil => intro b; rfl
  | cons e rest ih => intro b; simp [headInvocationsGo, ih false]

theorem headInvocationsGo_getElem (startBlockId : BlockId) :
    ∀ (events : List Nat) (b : Bool) (i : Nat),
      (headInvocationsGo startBlockId b events)[i]? =
        (events[i]?).map (fun s =>
          ((if b ∧ i = 0 then startBlockId else BlockId.slot s), BlockId.slot (s + 1))) := by
  intro events
  induction events with
  | nil => intro b i; simp [headInvocationsGo]
  | cons e rest ih =>
    intro b i
    cases i with
    | zero =>
      cases b <;> simp [headInvocationsGo]
    | succ j =>
      simp only [headInvocationsGo, List.getElem?_cons_succ]
      rw [ih false j]
      simp

/-- C3 (amended): for every `head` event at slot `S` the synchronizer is
invoked with final slot `S + 1` (half-open); the first invocation after
startup starts from the coordinator's `start_block_id`, and every subsequent
invocation starts from that event's own slot `S` (not the previous event's
slot), so each later event syncs exactly `[S, S+1)`. -/
theorem c3_head_dispatch (startBlockId : BlockId) (events : List Nat) :
    (headInvocations startBlockId events).length = events.length ∧
    ∀ i, (headInvocations startBlockId events)[i]? =
      (events[i]?).map (fun s =>
        ((if i = 0 then startBlockId else BlockId.slot s), BlockId.slot (s + 1))) := by
  constructor
  · exact headInvocationsGo_length startBlockId events true
  · intro i
    rw [show headInvocations startBlockId events = headInvocationsGo startBlockId true events
      from rfl, headInvocationsGo_getElem]
    simp

/-- Counterexample to C3 as stated: after a first head event at slot 10, a
second head event at slot 20 triggers a sync starting from slot 20 (the
current event's own slot), not from slot 10 (the previous head event's slot)
as the claim predicts. -/
theorem c3_head_dispatch_cex :
    (headInvocations (BlockId.slot 5) [10, 20])[1]? =
        some (BlockId.slot 20, BlockId.slot 21) ∧
      (headInvocations (BlockId.slot 5) [10, 20])[1]? ≠
        some (BlockId.slot 10, BlockId.slot 21) := by
  decide

/-! ## Synchronizer worker partition (src/synchronizer/mod.rs lines 44-115)

`Synchronizer::_sync_slots` splits `[from, to)` across worker threads:
`unprocessed = to - from`, `num_threads = min(cfg.num_threads, unprocessed)`,
`slots_per_thread = unprocessed / num_threads`,
`remaining = unprocessed % num_threads`; worker `i` handles
`[from + i * slots_per_thread, from + i * slots_per_thread + cnt)` where
`cnt = slots_per_thread + remaining` for the last worker and
`slots_per_thread` otherwise. -/

def threadRanges (numThreads fromSlot toSlot : Nat) : List (Nat × Nat) :=
  if fromSlot = toSlot then []
  else
    let unprocessed := toSlot - fromSlot
    let n0 := min numThreads unprocessed
    let spt := unprocessed / n0
    let rem := unprocessed % n0
    let n := if 0 < spt then n0 else unprocessed
    (List.range n).map fun i =>
      let cnt := if i = n - 1 then spt + rem else spt
      (fromSlot + i * spt, fromSlot + i * spt + cnt)

/-- C6: for a non-empty chunk `[from, to)` and a positive worker count, with
`n = min(num_threads, to - from)` workers and `q = (to - from) / n`, worker
`i` processes `[from + i*q, from + (i+1)*q)` with the last worker absorbing
the remainder, and every slot of `[from, to)` lands in exactly one worker's
sub-range. -/
theorem c6_worker_partition (numThreads fromSlot toSlot s : Nat)
    (hft : fromSlot < toSlot) (hnt : 0 < numThreads)
    (hs1 : fromSlot ≤ s) (hs2 : s < toSlot) :
    (threadRanges numThreads fromSlot toSlot).length
        = min numThreads (toSlot - fromSlot) ∧
    (∀ i (hi : i < (threadRanges numThreads fromSlot toSlot).length),
      (threadRanges numThreads fromSlot toSlot).get ⟨i, hi⟩ =
        (fromSlot + i * ((toSlot - fromSlot) / min numThreads (toSlot - fromSlot)),
         fromSlot + (i + 1) * ((toSlot - fromSlot) / min numThreads (toSlot - fromSlot))
           + (if i = min numThreads (toSlot - fromSlot) - 1
              then (toSlot - fromSlot) % min numThreads (toSlot - fromSlot) else 0))) ∧
    (∃! i : Nat, ∃ hi : i < (threadRanges numThreads fromSlot toSlot).length,
      ((threadRanges numThreads fromSlot toSlot).get ⟨i, hi⟩).1 ≤ s ∧
        s < ((threadRanges numThreads fromSlot toSlot).get ⟨i, hi⟩).2) := by
  have hU : 0 < toSlot - fromSlot := by omega
  set U := toSlot - fromSlot with hUdef
  set n0 := min numThreads U with hn0def
  have hn0pos : 0 < n0 := by omega
  have hn0le : n0 ≤ U := by omega
  set q := U / n0 with hqdef
  set rem := U % n0 with hremdef
  have hqpos : 0 < q := Nat.div_pos hn0le hn0pos
  have hdm : n0 * q + rem = U := Nat.div_add_mod U n0
  have hremlt : rem < n0 := Nat.mod_lt U hn0pos
  have hne : ¬ fromSlot = toSlot := by omega
  obtain ⟨m, hm⟩ : ∃ m, n0 = m + 1 := ⟨n0 - 1, by omega⟩
  have hranges : threadRanges numThreads fromSlot toSlot =
      (List.range n0).map (fun i =>
        (fromSlot + i * q, fromSlot + i * q + (if i = n0 - 1 then q + rem else q))) := by
    simp only [threadRanges, if_neg hne]
    rw [if_pos hqpos]
  have hlen : (threadRanges numThreads fromSlot toSlot).length = n0 := by
    rw [hranges]; simp
  have hget : ∀ i (hi : i < (threadRanges numThreads fromSlot toSlot).length),
      (threadRanges numThreads fromSlot toSlot).get ⟨i, hi⟩ =
        (fromSlot + i * q, fromSlot + i * q + (if i = n0 - 1 then q + rem else q)) := by
    intro i hi
    have hin : i < n0 := by rw [← hlen]; exact hi
    rw [List.get_eq_getElem]
    simp only [hranges, List.getElem_map, List.getElem_range]
  refine ⟨hlen, ?_, ?_⟩
  · intro i hi
    rw [hget i hi]
    by_cases hlast : i = n0 - 1
    · rw [if_pos hlast, if_pos hlast, hlast, hm]
      simp only [Nat.add_sub_cancel]
      rw [Prod.mk.injEq]
      exact ⟨rfl, by ring⟩
    · rw [if_neg hlast, if_neg hlast]
      rw [Prod.mk.injEq]
      exact ⟨rfl, by ring⟩
  · -- exactly one worker sub-range contains s
    set t := s - fromSlot with htdef
    have htU : t < U := by omega
    have hts : s = fromSlot + t := by omega
    set i0 := min (t / q) (n0 - 1) with hi0def
    have hi0lt : i0 < n0 := by omega
    have hi0len : i0 < (threadRanges numThreads fromSlot toSlot).length := by omega
    have hUeq : U = n0 * q + rem := by omega
    have hn0q : n0 * q = (n0 - 1) * q + q := by
      rw [hm]
      simp only [Nat.add_sub_cancel]
      ring
    have hlow : i0 * q ≤ t := by
      have h1 : i0 ≤ t / q := by omega
      calc i0 * q ≤ t / q * q := Nat.mul_le_mul_right q h1
      _ ≤ t := Nat.div_mul_le_self t q
    have hhigh : t < i0 * q + (if i0 = n0 - 1 then q + rem else q) := by
      by_cases hlast : i0 = n0 - 1
      · rw [if_pos hlast, hlast]
        have h2 : t < n0 * q + rem := by linarith
        linarith [hn0q]
      · rw [if_neg hlast]
        have hcase : t / q ≤ n0 - 1 := by
          by_contra hcon
          exact hlast (by omega)
        have hi0eq : i0 = t / q := by omega
        have h1 := Nat.div_add_mod t q
        have h2 : t % q < q := Nat.mod_lt t hqpos
        have h3 : q * (t / q) = i0 * q := by rw [hi0eq]; ring
        linarith
    refine ⟨i0, ⟨hi0len, ?_, ?_⟩, ?_⟩
    · rw [hget i0 hi0len]
      dsimp only
      linarith
    · rw [hget i0 hi0len]
      dsimp only
      linarith
    · -- uniqueness
      rintro j ⟨hj, hjlow, hjhigh⟩
      have hjn : j < n0 := by omega
      rw [hget j hj] at hjlow hjhigh
      dsimp only at hjlow hjhigh
      have hjlow2 : j * q ≤ t := by linarith
      by_cases hlast : j = n0 - 1
      · have hj2 : (n0 - 1) * q ≤ t := by rw [← hlast]; exact hjlow2
        have hdiv : n0 - 1 ≤ t / q := (Nat.le_div_iff_mul_le hqpos).mpr hj2
        omega
      · rw [if_neg hlast] at hjhigh
        have hjhigh2 : t < (j + 1) * q := by
          have h3 : (j + 1) * q = j * q + q := by ring
          linarith
        have hdiv : t / q = j := Nat.div_eq_of_lt_le hjlow2 hjhigh2
        omega

/-- Witness for C6 at a concrete partition: 3 workers over `[10, 20)`,
slot 17. -/
theorem c6_worker_partition_witness :
    (10 : Nat) < 20 ∧ (0 : Nat) < 3 ∧ (10 : Nat) ≤ 17 ∧ (17 : Nat) < 20 ∧
      ((threadRanges 3 10 20).length = min 3 (20 - 10) ∧
        (∀ i (hi : i < (threadRanges 3 10 20).length),
          (threadRanges 3 10 20).get ⟨i, hi⟩ =
            (10 + i * ((20 - 10) / min 3 (20 - 10)),
             10 + (i + 1) * ((20 - 10) / min 3 (20 - 10))
               + (if i = min 3 (20 - 10) - 1 then (20 - 10) % min 3 (20 - 10) else 0))) ∧
        (∃! i : Nat, ∃ hi : i < (threadRanges 3 10 20).length,
          ((threadRanges 3 10 20).get ⟨i, hi⟩).1 ≤ 17 ∧
            17 < ((threadRanges 3 10 20).get ⟨i, hi⟩).2)) :=
  ⟨by decide, by decide, by decide, by decide,
    c6_worker_partition 3 10 20 17 (by decide) (by decide) (by decide) (by decide)⟩

/-! ## Slot processor data model (src/clients/beacon/types.rs,
src/slots_processor/mod.rs)

Hashes (`H256`) are modelled as `Nat`.  The `ValidatorContainer` and the
blobscan sink entity types are imported by the sources but not declared
under src/, so they are modelled from the spec where noted. -/

structure ExecutionPayload where
  blockHash : Nat
  blockNumber : Nat
deriving Repr, DecidableEq

structure BlockBody where
  executionPayload : Option ExecutionPayload
  blobKzgCommitments : Option (List String)
deriving Repr, DecidableEq

structure BlockMessage where
  slot : Nat
  proposerIndex : Nat
  parentRoot : Nat
  body : BlockBody
deriving Repr, DecidableEq

/-- `Block` of src/clients/beacon/types.rs (the beacon block). -/
structure BeaconBlock where
  message : BlockMessage
deriving Repr, DecidableEq

/-- `Blob` of src/clients/beacon/types.rs: index, KZG commitment, KZG proof
and the blob payload bytes. -/
structure BeaconBlob where
  index : String
  kzgCommitment : String
  kzgProof : String
  blob : List Nat
deriving Repr, DecidableEq

/-- Modelled from the spec: the validator container returned by
`GET /eth/v1/beacon/states/head/validators/{index}` (§4.1); the source
imports `ValidatorContainer` from `clients/beacon/types.rs` but its
declaration is not under src/.  Only the proposer pubkey is consumed. -/
structure Validator where
  pubkey : String
deriving Repr, DecidableEq

structure ValidatorContainer where
  validator : Validator
deriving Repr, DecidableEq

structure ExecutionTx where
  hash : Nat
  blobVersionedHashes : Option (List Nat)
deriving Repr, DecidableEq

structure ExecutionBlock where
  number : Nat
  hash : Nat
  transactions : List ExecutionTx
deriving Repr, DecidableEq

/-- Modelled from the spec: the sink `Block` record binding
`(execution_block, slot, proposer_pubkey)` (§4.5 step 10); the blobscan
entity types are imported from `clients/blobscan/types.rs`, absent from
src/. -/
structure SinkBlock where
  number : Nat
  hash : Nat
  slot : Nat
  proposerPubkey : String
deriving Repr, DecidableEq

/-- Modelled from the spec: the sink `Transaction` record built from every
execution transaction (§4.5 step 7). -/
structure SinkTx where
  hash : Nat
  blockNumber : Nat
deriving Repr, DecidableEq

/-- Modelled from the spec: the sink `Blob` record built from
`Blob::from((blob, versioned_hash, index_in_tx, tx_hash))` (§4.5 step 11). -/
structure SinkBlob where
  versionedHash : Nat
  kzgCommitment : String
  kzgProof : String
  dataBytes : List Nat
  txHash : Nat
  txIndex : Nat
deriving Repr, DecidableEq

/-- One atomic sink submission `(Block, Transaction[], Blob[])` (§3). -/
structure SinkRecord where
  block : SinkBlock
  transactions : List SinkTx
  blobs : List SinkBlob
deriving Repr, DecidableEq

def sinkBlobOf (b : BeaconBlob) (vh : Nat) (i : Nat) (txh : Nat) : SinkBlob :=
  ⟨vh, b.kzgCommitment, b.kzgProof, b.blob, txh, i⟩

/-- Decode a run of hex-digit pairs into bytes. -/
def hexPairsToBytes : List Char → Option (List Nat)
  | [] => some []
  | [_] => none
  | c1 :: c2 :: rest =>
    if isHexDigit c1 && isHexDigit c2 then
      (hexPairsToBytes rest).map (fun bs => (hexVal c1 * 16 + hexVal c2) :: bs)
    else none

/-- Embeds `Bytes::from_str` (ethers): strip an optional `0x` marker and
decode pairs of hex digits. -/
def bytesFromStr (s : String) : Option (List Nat) :=
  hexPairsToBytes (if hexMarked s.data then s.data.drop 2 else s.data)

/-- Embeds `impl From<Vec<String>> for BlobsResponse`
(src/clients/beacon/types.rs lines 235-248) with the running index of
`enumerate`: blob `i` carries index `i.to_string()`, the `i`-th commitment,
an empty proof, and `Bytes::from_str(commitment)` as data.  The `unwrap` on
an invalid hex commitment is modelled as `none` (a panic). -/
def blobsFromCommitmentsGo : Nat → List String → Option (List BeaconBlob)
  | _, [] => some []
  | i, comm :: rest =>
    match bytesFromStr comm, blobsFromCommitmentsGo (i + 1) rest with
    | some bs, some blobs => some (⟨decString i, comm, "", bs⟩ :: blobs)
    | _, _ => none

def blobsFromCommitments (comms : List String) : Option (List BeaconBlob) :=
  blobsFromCommitmentsGo 0 comms

/-- Modelled from the spec: `create_tx_hash_versioned_hashes_mapping` (§4.5
step 6) — the map from transaction hash to blob versioned hashes, taken from
the type-3 transactions of the execution block
(`slots_processor/helpers.rs` is not under src/). -/
def txVersionedHashes (eb : ExecutionBlock) : List (Nat × List Nat) :=
  eb.transactions.filterMap
    (fun tx => tx.blobVersionedHashes.map (fun vhs => (tx.hash, vhs)))

/-- Modelled from the spec: `create_versioned_hash_blob_mapping` (§4.5 step
11; §3: the versioned hash is a deterministic pure function of the KZG
commitment, supplied here as `vh`) — index the blob list by versioned hash
(`slots_processor/helpers.rs` is not under src/). -/
def versionedHashBlobMapping (vh : String → Nat) (blobs : List BeaconBlob) :
    List (Nat × BeaconBlob) :=
  blobs.map (fun b => (vh b.kzgCommitment, b))

def assocFind (k : Nat) : List (Nat × α) → Option α
  | [] => none
  | (k2, v) :: rest => if k = k2 then some v else assocFind k rest

/-- The per-transaction half of the blob join of `process_slot` (lines
241-247): for the `i`-th versioned hash of a transaction, look the blob up
and build the sink blob entity; a missing blob is the
`with_context(...)?` error. -/
def joinBlobsTx (mapping : List (Nat × BeaconBlob)) (txh : Nat) :
    Nat → List Nat → Except String (List SinkBlob)
  | _, [] => .ok []
  | i, vh :: rest =>
    match assocFind vh mapping with
    | none => .error "Sidecar not found"
    | some b =>
      match joinBlobsTx mapping txh (i + 1) rest with
      | .error e => .error e
      | .ok tail => .ok (sinkBlobOf b vh i txh :: tail)

def joinBlobsAll (mapping : List (Nat × BeaconBlob)) :
    List (Nat × List Nat) → Except String (List SinkBlob)
  | [] => .ok []
  | (txh, vhs) :: rest =>
    match joinBlobsTx mapping txh 0 vhs with
    | .error e => .error e
    | .ok bs =>
      match joinBlobsAll mapping rest with
      | .error e => .error e
      | .ok tail => .ok (bs ++ tail)

/-! ## The slot processor itself (src/slots_processor/mod.rs lines 72-282) -/

/-- Mirrors `SlotProcessingError` (src/slots_processor/error.rs); client and
provider error payloads are opaque numeric codes. -/
inductive SlotProcessingError where
  | clientError : Nat → SlotProcessingError
  | provider : Nat → SlotProcessingError
  | other : String → SlotProcessingError
  | customError : String → SlotProcessingError
deriving Repr, DecidableEq

/-- Outcome of running `process_slot`: normal return, error return, or a
Rust panic. -/
inductive RunOutcome (ε : Type) where
  | ok : RunOutcome ε
  | err : ε → RunOutcome ε
  | panicked : RunOutcome ε
deriving Repr, DecidableEq

/-- Deterministic collapse of the error-retry loops of `process_slot`
(`loop { match call { Ok(v) => break v, Err(_) if retries < 5000 => retry,
Err(e) => return Err(e) } }`): against a deterministic environment every
retry sees the same result. -/
def retryOnError (call : Except ε α) : Nat → Except ε α
  | 0 => call
  | fuel + 1 =>
    match call with
    | .ok a => .ok a
    | .error _ => retryOnError call fuel

theorem retryOnError_eq (call : Except ε α) : ∀ fuel, retryOnError call fuel = call := by
  intro fuel
  induction fuel with
  | zero => rfl
  | succ f ih => cases call <;> simp [retryOnError, ih]

/-- The validator loop of `process_slot` (lines 205-223): a client error
propagates immediately via `?`; `Ok(None)` retries up to 5000 times and then
yields the custom exhaustion error; `Ok(Some(c))` breaks. -/
def validatorRetry (call : Except Nat (Option ValidatorContainer)) :
    Nat → Except SlotProcessingError ValidatorContainer
  | 0 =>
    match call with
    | .error e => .error (.clientError e)
    | .ok (some c) => .ok c
    | .ok none => .error (.customError "Failed to get validator after retries")
  | fuel + 1 =>
    match call with
    | .error e => .error (.clientError e)
    | .ok (some c) => .ok c
    | .ok none => validatorRetry call fuel

/-- The deterministic network environment of one slot. -/
structure SlotEnv where
  getBlock : Nat → Except Nat (Option BeaconBlock)
  getBlockWithTxs : Nat → Except Nat (Option ExecutionBlock)
  getHeadValidator : Nat → Except Nat (Option ValidatorContainer)
  indexRecord : SinkRecord → Except Nat Unit
  versionedHash : String → Nat

/-- Embeds `SlotsProcessor::process_slot` (src/slots_processor/mod.rs lines
72-282) against a deterministic environment; each retry loop is collapsed by
`retryOnError` / `validatorRetry` with `max_retries = 5000`.  Returns the
outcome together with the records submitted to the sink's `index`.  The
`unwrap()` of the possibly absent execution block at line 177 and the
`unwrap()` inside `BlobsResponse::from` are panics. -/
def processSlot (env : SlotEnv) (slot : Nat) :
    RunOutcome SlotProcessingError × List SinkRecord :=
  if slot = 0 then (.ok, [])
  else
    match retryOnError (env.getBlock slot) 5000 with
    | .error e => (.err (.clientError e), [])
    | .ok none => (.ok, [])
    | .ok (some beaconBlock) =>
      match beaconBlock.message.body.executionPayload with
      | none => (.ok, [])
      | some payload =>
        let commitments := (beaconBlock.message.body.blobKzgCommitments).getD []
        match retryOnError (env.getBlockWithTxs payload.blockHash) 5000 with
        | .error e => (.err (.provider e), [])
        | .ok none => (.panicked, [])
        | .ok (some executionBlock) =>
          let mapping := txVersionedHashes executionBlock
          let txEntities := executionBlock.transactions.map
            (fun tx => SinkTx.mk tx.hash executionBlock.number)
          if txEntities.isEmpty then (.ok, [])
          else
            match validatorRetry (env.getHeadValidator beaconBlock.message.proposerIndex) 5000 with
            | .error e => (.err e, [])
            | .ok container =>
              let blockEntity := SinkBlock.mk executionBlock.number executionBlock.hash slot
                container.validator.pubkey
              match
                (if commitments.isEmpty then some (Except.ok []) else
                  match blobsFromCommitments commitments with
                  | none => none
                  | some blobs => some (joinBlobsAll
                      (versionedHashBlobMapping env.versionedHash blobs) mapping))
              with
              | none => (.panicked, [])
              | some (.error e) => (.err (.other e), [])
              | some (.ok blobEntities) =>
                let record := SinkRecord.mk blockEntity txEntities blobEntities
                match retryOnError (env.indexRecord record) 5000 with
                | .error e => (.err (.clientError e), [])
                | .ok _ => (.ok, [record])

/-- C5: `process_slot` returns success and submits nothing to the sink when
the slot is 0 (genesis), when the beacon block is absent (missed slot), or
when the beacon block carries no execution payload (pre-Merge). -/
theorem c5_process_slot_skips (env : SlotEnv) (slot : Nat) :
    (slot = 0 → processSlot env slot = (.ok, [])) ∧
    (env.getBlock slot = .ok none → processSlot env slot = (.ok, [])) ∧
    (∀ b, env.getBlock slot = .ok (some b) →
      b.message.body.executionPayload = none → processSlot env slot = (.ok, [])) := by
  refine ⟨?_, ?_, ?_⟩
  · intro h
    simp [processSlot, h]
  · intro h
    by_cases h0 : slot = 0
    · simp [processSlot, h0]
    · simp [processSlot, h0, retryOnError_eq, h]
  · intro b hb hp
    by_cases h0 : slot = 0
    · simp [processSlot, h0]
    · simp [processSlot, h0, retryOnError_eq, hb, hp]

/-- A concrete environment with no beacon blocks at all. -/
def slotEnvA : SlotEnv :=
  ⟨fun _ => .ok none, fun _ => .ok none, fun _ => .ok none, fun _ => .ok (), fun _ => 0⟩

/-- Witness for C5: a missed slot (beacon block absent at slot 42). -/
theorem c5_process_slot_skips_witness : processSlot slotEnvA 42 = (.ok, []) :=
  (c5_process_slot_skips slotEnvA 42).2.1 rfl

/-- A beacon block at slot 5 carrying an execution payload (block hash 99). -/
def beaconBlockB : BeaconBlock :=
  ⟨⟨5, 7, 0, ⟨some ⟨99, 1234⟩, none⟩⟩⟩

/-- An environment where the beacon block of slot 5 references execution
block 99 but the execution client answers `Ok(None)` for every hash. -/
def slotEnvB : SlotEnv :=
  ⟨fun s => if s = 5 then .ok (some beaconBlockB) else .ok none,
   fun _ => .ok none, fun _ => .ok none, fun _ => .ok (), fun _ => 0⟩

/-- C2 (code behaviour at the failing input): when the execution block fetch
succeeds but yields no block, `process_slot` hits `execution_block.unwrap()`
(src/slots_processor/mod.rs line 177) and panics instead of returning a
slot-processing error as the claim requires. -/
theorem c2_missing_execution_block_panics :
    processSlot slotEnvB 5 = (.panicked, []) := rfl

theorem assocFind_mem {α : Type} (k : Nat) :
    ∀ (l : List (Nat × α)) (v : α), assocFind k l = some v → (k, v) ∈ l := by
  intro l
  induction l with
  | nil => intro v h; simp [assocFind] at h
  | cons p rest ih =>
    intro v h
    obtain ⟨k2, v2⟩ := p
    simp only [assocFind] at h
    by_cases hk : k = k2
    · rw [if_pos hk] at h
      injection h with hv
      subst hk
      subst hv
      exact List.mem_cons_self _ _
    · rw [if_neg hk] at h
      exact List.mem_cons_of_mem _ (ih v h)

theorem joinBlobsTx_mem (mapping : List (Nat × BeaconBlob)) (txh : Nat) :
    ∀ (vhs : List Nat) (i : Nat) (out : List SinkBlob),
      joinBlobsTx mapping txh i vhs = .ok out →
      ∀ sb ∈ out, ∃ b vh k, assocFind vh mapping = some b ∧ sb = sinkBlobOf b vh k txh := by
  intro vhs
  induction vhs with
  | nil =>
    intro i out h sb hsb
    simp only [joinBlobsTx] at h
    injection h with hout
    subst hout
    simp at hsb
  | cons vh rest ih =>
    intro i out h sb hsb
    simp only [joinBlobsTx] at h
    cases hfind : assocFind vh mapping with
    | none => rw [hfind] at h; cases h
    | some b =>
      rw [hfind] at h
      cases hrec : joinBlobsTx mapping txh (i + 1) rest with
      | error e => rw [hrec] at h; cases h
      | ok tail =>
        rw [hrec] at h
        injection h with hout
        subst hout
        rcases List.mem_cons.mp hsb with heq | htail
        · exact ⟨b, vh, i, hfind, heq⟩
        · exact ih (i + 1) tail hrec sb htail

theorem joinBlobsAll_mem (mapping : List (Nat × BeaconBlob)) :
    ∀ (pairs : List (Nat × List Nat)) (out : List SinkBlob),
      joinBlobsAll mapping pairs = .ok out →
      ∀ sb ∈ out, ∃ b vh k txh, assocFind vh mapping = some b ∧ sb = sinkBlobOf b vh k txh := by
  intro pairs
  induction pairs with
  | nil =>
    intro out h sb hsb
    simp only [joinBlobsAll] at h
    injection h with hout
    subst hout
    simp at hsb
  | cons p rest ih =>
    intro out h sb hsb
    obtain ⟨txh, vhs⟩ := p
    simp only [joinBlobsAll] at h
    cases htx : joinBlobsTx mapping txh 0 vhs with
    | error e => rw [htx] at h; cases h
    | ok bs =>
      rw [htx] at h
      cases hrest : joinBlobsAll mapping rest with
      | error e => rw [hrest] at h; cases h
      | ok tail =>
        rw [hrest] at h
        injection h with hout
        subst hout
        rcases List.mem_append.mp hsb with hmem | hmem
        · obtain ⟨b, vh, k, hfind, heq⟩ := joinBlobsTx_mem mapping txh vhs 0 bs htx sb hmem
          exact ⟨b, vh, k, txh, hfind, heq⟩
        · exact ih tail hrest sb hmem

theorem versionedHashBlobMapping_mem (f : String → Nat) (blobs : List BeaconBlob)
    (k : Nat) (b : BeaconBlob) :
    (k, b) ∈ versionedHashBlobMapping f blobs → b ∈ blobs := by
  intro h
  simp only [versionedHashBlobMapping, List.mem_map] at h
  obtain ⟨b2, hb2, heq⟩ := h
  cases heq
  exact hb2

theorem blobsFromCommitmentsGo_spec :
    ∀ (comms : List String) (i : Nat) (blobs : List BeaconBlob),
      blobsFromCommitmentsGo i comms = some blobs →
      blobs.length = comms.length ∧
      ∀ j (hj : j < blobs.length) (hc : j < comms.length), ∃ bs,
        bytesFromStr (comms.get ⟨j, hc⟩) = some bs ∧
        blobs.get ⟨j, hj⟩ = ⟨decString (i + j), comms.get ⟨j, hc⟩, "", bs⟩ := by
  intro comms
  induction comms with
  | nil =>
    intro i blobs h
    simp only [blobsFromCommitmentsGo] at h
    injection h with hout
    subst hout
    exact ⟨rfl, fun j hj => absurd hj (by simp)⟩
  | cons comm rest ih =>
    intro i blobs h
    cases hb : bytesFromStr comm with
    | none =>
      simp only [blobsFromCommitmentsGo, hb] at h
      exact Option.noConfusion h
    | some bs0 =>
      cases hr : blobsFromCommitmentsGo (i + 1) rest with
      | none =>
        simp only [blobsFromCommitmentsGo, hb, hr] at h
        exact Option.noConfusion h
      | some tail =>
        simp only [blobsFromCommitmentsGo, hb, hr] at h
        injection h with hout
        subst hout
        obtain ⟨hlen, hidx⟩ := ih (i + 1) tail hr
        refine ⟨by simp [hlen], ?_⟩
        intro j hj hc
        cases j with
        | zero =>
          refine ⟨bs0, ?_, ?_⟩
          · simpa using hb
          · simp [Nat.add_zero]
        | succ k =>
          have hk : k < tail.length := by simpa using hj
          have hkc : k < rest.length := by simpa using hc
          obtain ⟨bs, hbs, hget⟩ := hidx k hk hkc
          refine ⟨bs, ?_, ?_⟩
          · simpa using hbs
          · have harith : i + 1 + k = i + (k + 1) := by omega
            rw [← harith]
            simpa using hget

/-- C10: the synthesized blob list `BlobsResponse::from(Vec<String>)` has
exactly one blob per KZG commitment — blob `i` carries index
`i.to_string()`, the `i`-th commitment, an empty proof, and the bytes parsed
from the commitment string itself (not real blob content) — and every blob
entity `process_slot` submits to the sink is built from one of these
synthesized blobs. -/
theorem c10_synthesized_blobs (comms : List String) (blobs : List BeaconBlob)
    (h : blobsFromCommitments comms = some blobs) :
    blobs.length = comms.length ∧
    (∀ j (hj : j < blobs.length) (hc : j < comms.length), ∃ bs,
      bytesFromStr (comms.get ⟨j, hc⟩) = some bs ∧
      blobs.get ⟨j, hj⟩ = ⟨decString j, comms.get ⟨j, hc⟩, "", bs⟩) ∧
    (∀ (env : SlotEnv) (slot : Nat) (b : BeaconBlock),
      env.getBlock slot = .ok (some b) →
      b.message.body.blobKzgCommitments = some comms →
      ∀ rec ∈ (processSlot env slot).2, ∀ sb ∈ rec.blobs,
        ∃ blob ∈ blobs, ∃ vh k txh, sb = sinkBlobOf blob vh k txh) := by
  obtain ⟨hlen, hidx⟩ := blobsFromCommitmentsGo_spec comms 0 blobs h
  refine ⟨hlen, ?_, ?_⟩
  · intro j hj hc
    obtain ⟨bs, hbs, hget⟩ := hidx j hj hc
    exact ⟨bs, hbs, by simpa using hget⟩
  · intro env slot b hgb hcomm rec hrec sb hsb
    by_cases h0 : slot = 0
    · rw [h0] at hrec
      simp [processSlot] at hrec
    · simp only [processSlot, if_neg h0, retryOnError_eq, hgb, hcomm, Option.getD_some] at hrec
      split at hrec
      · simp at hrec
      · split at hrec
        · simp at hrec
        · simp at hrec
        · split at hrec
          · simp at hrec
          · split at hrec
            · simp at hrec
            · split at hrec
              · simp at hrec
              · simp at hrec
              · rename_i blobRes heq
                split at hrec
                · simp at hrec
                · simp only [List.mem_singleton] at hrec
                  subst hrec
                  simp only at hsb
                  by_cases hemp : comms.isEmpty
                  · rw [if_pos hemp] at heq
                    injection heq with heq2
                    injection heq2 with heq3
                    rw [← heq3] at hsb
                    simp at hsb
                  · rw [if_neg hemp] at heq
                    cases hbl : blobsFromCommitments comms with
                    | none => rw [hbl] at heq; cases heq
                    | some blobs2 =>
                      rw [hbl] at heq
                      rw [h] at hbl
                      injection hbl with hbl2
                      subst hbl2
                      injection heq with heq2
                      obtain ⟨b2, vh, k, txh, hfind, hsbeq⟩ :=
                        joinBlobsAll_mem _ _ _ heq2 sb hsb
                      exact ⟨b2, versionedHashBlobMapping_mem env.versionedHash blobs vh b2
                        (assocFind_mem vh _ b2 hfind), vh, k, txh, hsbeq⟩

/-- Witness for C10 at two concrete commitments. -/
theorem c10_synthesized_blobs_witness :
    blobsFromCommitments ["0xaabb", "0x0102"] =
        some [⟨"0", "0xaabb", "", [170, 187]⟩, ⟨"1", "0x0102", "", [1, 2]⟩] ∧
      ([(⟨"0", "0xaabb", "", [170, 187]⟩ : BeaconBlob),
        ⟨"1", "0x0102", "", [1, 2]⟩].length = ["0xaabb", "0x0102"].length) :=
  ⟨rfl, (c10_synthesized_blobs ["0xaabb", "0x0102"]
    [⟨"0", "0xaabb", "", [170, 187]⟩, ⟨"1", "0x0102", "", [1, 2]⟩] rfl).1⟩

/-! ## Chain-reorg traversal (src/indexer/mod.rs lines 304-331)

The `chain_reorg` handler walks the parent-root chain starting from
`old_head_block` for `current_depth in 1..=depth`: a client error on a
header lookup propagates, a `None` stops the walk early, otherwise the
header's slot is collected and the walk moves to its parent root; the
collected slots are then submitted to `blobscan.handle_reorged_slots`. -/

/-- Slot and parent root of a block header (`BlockHeaderMessage`,
types.rs lines 109-114; the wrapper layers are elided). -/
structure ReorgHeader where
  slot : Nat
  parentRoot : Nat
deriving Repr, DecidableEq

def collectReorgedGo (getHeader : Nat → Except Nat (Option ReorgHeader)) :
    Nat → Nat → List Nat → Except Nat (List Nat)
  | _, 0, acc => .ok acc.reverse
  | cur, steps + 1, acc =>
    match getHeader cur with
    | .error e => .error e
    | .ok none => .ok acc.reverse
    | .ok (some hd) => collectReorgedGo getHeader hd.parentRoot steps (hd.slot :: acc)

/-- The parent-root walk of the `chain_reorg` handler. -/
def collectReorged (getHeader : Nat → Except Nat (Option ReorgHeader))
    (oldHead depth : Nat) : Except Nat (List Nat) :=
  collectReorgedGo getHeader oldHead depth []

/-- The `chain_reorg` event handling: collect the reorged slots, submit them
via `handle_reorged_slots`; on success the submitted list is returned. -/
def handleChainReorg (getHeader : Nat → Except Nat (Option ReorgHeader))
    (handleReorgedSlots : List Nat → Except Nat Nat)
    (oldHead depth : Nat) : Except Nat (List Nat) :=
  match collectReorged getHeader oldHead depth with
  | .error e => .error e
  | .ok slots =>
    match handleReorgedSlots slots with
    | .error e => .error e
    | .ok _ => .ok slots

/-- `headerPath gh cur hds` states that looking up `cur` yields the first
header of `hds`, whose parent root leads to the second, and so on. -/
def headerPath (getHeader : Nat → Except Nat (Option ReorgHeader)) :
    Nat → List ReorgHeader → Prop
  | _, [] => True
  | cur, hd :: rest =>
    getHeader cur = .ok (some hd) ∧ headerPath getHeader hd.parentRoot rest

/-- The hash reached after following a header path. -/
def pathEnd : Nat → List ReorgHeader → Nat
  | cur, [] => cur
  | _, hd :: rest => pathEnd hd.parentRoot rest

theorem collectReorgedGo_length (getHeader : Nat → Except Nat (Option ReorgHeader)) :
    ∀ (steps : Nat) (cur : Nat) (acc slots : List Nat),
      collectReorgedGo getHeader cur steps acc = .ok slots →
      slots.length ≤ steps + acc.length := by
  intro steps
  induction steps with
  | zero =>
    intro cur acc slots h
    simp only [collectReorgedGo] at h
    injection h with hout
    subst hout
    simp
  | succ s ih =>
    intro cur acc slots h
    simp only [collectReorgedGo] at h
    cases hg : getHeader cur with
    | error e => rw [hg] at h; cases h
    | ok o =>
      cases o with
      | none =>
        rw [hg] at h
        injection h with hout
        subst hout
        simp
      | some hd =>
        rw [hg] at h
        have := ih hd.parentRoot (hd.slot :: acc) slots h
        simp at this
        omega

theorem collectReorgedGo_path (getHeader : Nat → Except Nat (Option ReorgHeader)) :
    ∀ (hds : List ReorgHeader) (cur steps : Nat) (acc : List Nat),
      headerPath getHeader cur hds →
      getHeader (pathEnd cur hds) = .ok none →
      hds.length < steps →
      collectReorgedGo getHeader cur steps acc =
        .ok (acc.reverse ++ hds.map (fun hd => hd.slot)) := by
  intro hds
  induction hds with
  | nil =>
    intro cur steps acc hpath hstop hlen
    obtain ⟨s, rfl⟩ : ∃ s, steps = s + 1 := ⟨steps - 1, by omega⟩
    simp only [collectReorgedGo, pathEnd] at hstop ⊢
    rw [hstop]
    simp
  | cons hd rest ih =>
    intro cur steps acc hpath hstop hlen
    obtain ⟨hcur, hrest⟩ := hpath
    obtain ⟨s, rfl⟩ : ∃ s, steps = s + 1 := ⟨steps - 1, by omega⟩
    simp only [collectReorgedGo, hcur]
    have hstop2 : getHeader (pathEnd hd.parentRoot rest) = .ok none := by
      simpa [pathEnd] using hstop
    have hlen2 : rest.length < s := by simpa using hlen
    rw [ih hd.parentRoot s (hd.slot :: acc) hrest hstop2 hlen2]
    simp

/-- C7: for every `chain_reorg` event of depth `d`, the parent-root walk
collects at most `d` slots; and when a header lookup returns `None` after
`k < d` steps, the walk stops there and the `k` slots already collected are
still submitted to `handle_reorged_slots`, the event completing without
error. -/
theorem c7_reorg_traversal (getHeader : Nat → Except Nat (Option ReorgHeader))
    (handleReorgedSlots : List Nat → Except Nat Nat)
    (oldHead depth : Nat) (hds : List ReorgHeader) (m : Nat) :
    (∀ slots, collectReorged getHeader oldHead depth = .ok slots →
      slots.length ≤ depth) ∧
    (headerPath getHeader oldHead hds →
      getHeader (pathEnd oldHead hds) = .ok none →
      hds.length < depth →
      handleReorgedSlots (hds.map (fun hd => hd.slot)) = .ok m →
      handleChainReorg getHeader handleReorgedSlots oldHead depth =
        .ok (hds.map (fun hd => hd.slot))) := by
  constructor
  · intro slots h
    have := collectReorgedGo_length getHeader depth oldHead [] slots h
    simpa using this
  · intro hpath hstop hlen hsink
    have hcol : collectReorged getHeader oldHead depth =
        .ok (hds.map (fun hd => hd.slot)) := by
      have := collectReorgedGo_path getHeader hds oldHead depth [] hpath hstop hlen
      simpa [collectReorged] using this
    simp only [handleChainReorg, hcol, hsink]

/-- A header store with a single parent link: hash 1 has slot 200 and parent
root 2; hash 2 is unknown. -/
def reorgHeadersC : Nat → Except Nat (Option ReorgHeader) :=
  fun h => if h = 1 then .ok (some ⟨200, 2⟩) else .ok none

def reorgSinkC : List Nat → Except Nat Nat := fun l => .ok l.length

/-- Witness for C7: depth 3, but the parent chain ends after one header;
slot 200 is still submitted and the event completes without error. -/
theorem c7_reorg_traversal_witness :
    handleChainReorg reorgHeadersC reorgSinkC 1 3 = .ok [200] :=
  (c7_reorg_traversal reorgHeadersC reorgSinkC 1 3 [⟨200, 2⟩] 1).2
    ⟨rfl, trivial⟩ rfl (by decide) rfl

/-! ## Synchronizer sweep with checkpointing

src/indexer/mod.rs builds its synchronizers through `SynchronizerBuilder`
with a `CheckpointType` (lines 452-466), but the `CheckpointType`-aware
`Synchronizer` is not under src/; src/synchronizer/mod.rs holds an older
checkpoint-less variant whose `run` (lines 150-236) contributes the chunk
loop: chunks of at most `slots_checkpoint`, processed sequentially, one
`update_slot(final_chunk_slot - 1)` write per successful chunk wrapped in
`retry_notify`, a failing write aborting the sweep.  The per-type checkpoint
value and the `from > to` dispatch are modelled from the spec (§4.6). -/

inductive CheckpointType where
  | lower : CheckpointType
  | upper : CheckpointType
  | disabled : CheckpointType
deriving Repr, DecidableEq

/-- A partial sync-state write; `none` fields are left untouched by the sink
(§4.3).  `last_finalized_block` is never written by the sweep and elided. -/
structure SyncWrite where
  lastLowerSyncedSlot : Option Nat
  lastUpperSyncedSlot : Option Nat
deriving Repr, DecidableEq

inductive SyncError where
  | startGtEnd : SyncError
  | chunkFailed : Nat → SyncError
  | checkpointFailed : Nat → SyncError
  | slotFailed : Nat → Nat → SyncError
deriving Repr, DecidableEq

/-- Modelled from the spec: the checkpoint written after a successful chunk
ending at `chunkEnd` (§4.6 step 4) — Upper writes
`last_upper_synced_slot = chunk_end - 1` (matching the src synchronizer's
`update_slot(final_chunk_slot - 1)`), Lower writes
`last_lower_synced_slot = chunk_end`, Disabled skips checkpointing. -/
def checkpointWrite : CheckpointType → Nat → Option SyncWrite
  | .upper, chunkEnd => some ⟨none, some (chunkEnd - 1)⟩
  | .lower, chunkEnd => some ⟨some chunkEnd, none⟩
  | .disabled, _ => none

/-- The environment of a sweep: chunk processing, the sink's sync-state
write (as its post-retry outcome — the source wraps the write in
`retry_notify`, which against a deterministic sink collapses to one result),
and per-slot processing for the reverse walk. -/
structure SyncEnv where
  processChunk : Nat → Nat → Except Nat Unit
  writeState : SyncWrite → Except Nat Unit
  procSlot : Nat → Except Nat Unit

/-- The slot sequence of `SlotsProcessor::process_slots`
(src/slots_processor/mod.rs lines 51-56): `(final..initial).rev()` when
`initial > final`, `(initial..final)` otherwise. -/
def slotsSequence (initialSlot finalSlot : Nat) : List Nat :=
  if finalSlot < initialSlot then (List.range' finalSlot (initialSlot - finalSlot)).reverse
  else List.range' initialSlot (finalSlot - initialSlot)

def processSlotsGo (procSlot : Nat → Except Nat Unit) :
    List Nat → Except SyncError Unit × List Nat
  | [] => (.ok (), [])
  | s :: rest =>
    match procSlot s with
    | .error e => (.error (.slotFailed s e), [s])
    | .ok _ =>
      let restOut := processSlotsGo procSlot rest
      (restOut.1, s :: restOut.2)

/-- Embeds `SlotsProcessor::process_slots` (lines 46-70): walk the slot
sequence in order, stopping at the first failing slot; the second component
logs the slots whose processing was invoked. -/
def processSlotsRun (procSlot : Nat → Except Nat Unit) (initialSlot finalSlot : Nat) :
    Except SyncError Unit × List Nat :=
  processSlotsGo procSlot (slotsSequence initialSlot finalSlot)

/-- The chunk bounds `(start, end)` of the sweep over `[cur, toSlot)` with
chunk size cap `cp`, with explicit fuel (`toSlot - cur` suffices for
`0 < cp`). -/
def chunkBounds (cp : Nat) : Nat → Nat → Nat → List (Nat × Nat)
  | 0, _, _ => []
  | fuel + 1, cur, toSlot =>
    if cur < toSlot then
      (cur, cur + min (toSlot - cur) cp)
        :: chunkBounds cp fuel (cur + min (toSlot - cur) cp) toSlot
    else []

/-- The chunk loop of the src synchronizer's `run` (`Ordering::Less` arm,
lines 169-230), parameterised by the checkpoint type: process the chunk,
then perform the checkpoint write chosen by `checkpointWrite`; a chunk or
checkpoint failure aborts the sweep.  Returns the result, the successful
checkpoint writes, and the chunk invocations. -/
def runChunksGo (cp : Nat) (ckpt : CheckpointType) (env : SyncEnv) :
    Nat → Nat → Nat → Except SyncError Unit × List SyncWrite × List (Nat × Nat)
  | 0, _, _ => (.ok (), [], [])
  | fuel + 1, cur, toSlot =>
    if cur < toSlot then
      let endSlot := cur + min (toSlot - cur) cp
      match env.processChunk cur endSlot with
      | .error e => (.error (.chunkFailed e), [], [(cur, endSlot)])
      | .ok _ =>
        match checkpointWrite ckpt endSlot with
        | none =>
          let rest := runChunksGo cp ckpt env fuel endSlot toSlot
          (rest.1, rest.2.1, (cur, endSlot) :: rest.2.2)
        | some w =>
          match env.writeState w with
          | .error e => (.error (.checkpointFailed e), [], [(cur, endSlot)])
          | .ok _ =>
            let rest := runChunksGo cp ckpt env fuel endSlot toSlot
            (rest.1, w :: rest.2.1, (cur, endSlot) :: rest.2.2)
    else (.ok (), [], [])

/-- Full log of one sweep. -/
structure SweepLog where
  result : Except SyncError Unit
  writes : List SyncWrite
  chunks : List (Nat × Nat)
  slots : List Nat
deriving Repr

/-- Modelled from the spec (§4.6) plus the src chunk loop: the
`CheckpointType`-aware `Synchronizer::run`.  `from == to` succeeds at once;
for `from > to`, Upper is the "start > end" error (the src synchronizer's
`Ordering::Greater` arm errors this way) while Lower walks the range in
reverse by delegating to `SlotsProcessor::process_slots`; for `from < to`
the chunked sweep runs with per-type checkpoint writes.  The spec leaves
`from > to` under Disabled unspecified; it is grouped with the start > end
error as in the src synchronizer. -/
def runWithCheckpoint (cp : Nat) (ckpt : CheckpointType) (env : SyncEnv)
    (fromSlot toSlot : Nat) : SweepLog :=
  if fromSlot = toSlot then ⟨.ok (), [], [], []⟩
  else if toSlot < fromSlot then
    match ckpt with
    | .lower =>
      let out := processSlotsRun env.procSlot fromSlot toSlot
      ⟨out.1, [], [], out.2⟩
    | _ => ⟨.error .startGtEnd, [], [], []⟩
  else
    let out := runChunksGo cp ckpt env (toSlot - fromSlot) fromSlot toSlot
    ⟨out.1, out.2.1, out.2.2, []⟩

theorem filterMap_const_none {α β : Type} (l : List α) :
    l.filterMap (fun _ => (none : Option β)) = [] := by
  induction l with
  | nil => rfl
  | cons x xs ih => simp [List.filterMap_cons, ih]

theorem runChunksGo_success (cp : Nat) (ckpt : CheckpointType) (env : SyncEnv)
    (hproc : ∀ a b, env.processChunk a b = .ok ())
    (hwrite : ∀ w, env.writeState w = .ok ()) :
    ∀ fuel cur toSlot,
      runChunksGo cp ckpt env fuel cur toSlot =
        (.ok (),
         (chunkBounds cp fuel cur toSlot).filterMap (fun c => checkpointWrite ckpt c.2),
         chunkBounds cp fuel cur toSlot) := by
  intro fuel
  induction fuel with
  | zero => intro cur toSlot; rfl
  | succ f ih =>
    intro cur toSlot
    by_cases hlt : cur < toSlot
    · simp only [runChunksGo, chunkBounds, if_pos hlt, hproc]
      cases hw : checkpointWrite ckpt (cur + min (toSlot - cur) cp) with
      | none => simp [ih, List.filterMap_cons, hw]
      | some w => simp [ih, hwrite, List.filterMap_cons, hw]
    · simp [runChunksGo, chunkBounds, if_neg hlt]

theorem processSlotsGo_success (procSlot : Nat → Except Nat Unit)
    (hok : ∀ s, procSlot s = .ok ()) :
    ∀ l, processSlotsGo procSlot l = (.ok (), l) := by
  intro l
  induction l with
  | nil => rfl
  | cons s rest ih => simp [processSlotsGo, hok s, ih]

/-- C1 (spec-modelled checkpoint dispatch): over a sweep `[from, to)` with
`from < to` and a positive chunk size, when every chunk and every checkpoint
write succeed, the sweep succeeds and performs exactly one checkpoint write
per chunk — `last_upper_synced_slot = chunk_end - 1` under Upper,
`last_lower_synced_slot = chunk_end` under Lower, and no write under
Disabled; and a checkpoint write that still fails after retries aborts the
sweep with that error. -/
theorem c1_checkpoint_per_chunk (cp : Nat) (ckpt : CheckpointType) (env : SyncEnv)
    (fromSlot toSlot : Nat) (h1 : 0 < cp) (h2 : fromSlot < toSlot) :
    ((∀ a b, env.processChunk a b = .ok ()) → (∀ w, env.writeState w = .ok ()) →
      (runWithCheckpoint cp ckpt env fromSlot toSlot).result = .ok () ∧
      (runWithCheckpoint cp ckpt env fromSlot toSlot).chunks
          = chunkBounds cp (toSlot - fromSlot) fromSlot toSlot ∧
      (runWithCheckpoint cp ckpt env fromSlot toSlot).writes
          = (chunkBounds cp (toSlot - fromSlot) fromSlot toSlot).filterMap
              (fun c => checkpointWrite ckpt c.2) ∧
      (ckpt = .upper →
        (runWithCheckpoint cp ckpt env fromSlot toSlot).writes
          = (chunkBounds cp (toSlot - fromSlot) fromSlot toSlot).map
              (fun c => ⟨none, some (c.2 - 1)⟩)) ∧
      (ckpt = .lower →
        (runWithCheckpoint cp ckpt env fromSlot toSlot).writes
          = (chunkBounds cp (toSlot - fromSlot) fromSlot toSlot).map
              (fun c => ⟨some c.2, none⟩)) ∧
      (ckpt = .disabled →
        (runWithCheckpoint cp ckpt env fromSlot toSlot).writes = [])) ∧
    (∀ e, (∀ a b, env.processChunk a b = .ok ()) → ckpt ≠ .disabled →
      (∀ w, env.writeState w = .error e) →
      (runWithCheckpoint cp ckpt env fromSlot toSlot).result
          = .error (.checkpointFailed e) ∧
      (runWithCheckpoint cp ckpt env fromSlot toSlot).writes = []) := by
  have hne : ¬ fromSlot = toSlot := by omega
  have hnlt : ¬ toSlot < fromSlot := by omega
  constructor
  · intro hproc hwrite
    have hrun : runWithCheckpoint cp ckpt env fromSlot toSlot =
        ⟨.ok (),
         (chunkBounds cp (toSlot - fromSlot) fromSlot toSlot).filterMap
            (fun c => checkpointWrite ckpt c.2),
         chunkBounds cp (toSlot - fromSlot) fromSlot toSlot, []⟩ := by
      simp only [runWithCheckpoint, if_neg hne, if_neg hnlt,
        runChunksGo_success cp ckpt env hproc hwrite]
    rw [hrun]
    refine ⟨rfl, rfl, rfl, ?_, ?_, ?_⟩
    · rintro rfl
      rw [show (fun c : Nat × Nat => checkpointWrite .upper c.2)
          = some ∘ (fun c : Nat × Nat => (⟨none, some (c.2 - 1)⟩ : SyncWrite)) from rfl,
        List.filterMap_eq_map]
    · rintro rfl
      rw [show (fun c : Nat × Nat => checkpointWrite .lower c.2)
          = some ∘ (fun c : Nat × Nat => (⟨some c.2, none⟩ : SyncWrite)) from rfl,
        List.filterMap_eq_map]
    · rintro rfl
      exact filterMap_const_none _
  · intro e hproc hnd hwfail
    obtain ⟨f, hf⟩ : ∃ f, toSlot - fromSlot = f + 1 := ⟨toSlot - fromSlot - 1, by omega⟩
    cases ckpt with
    | disabled => exact absurd rfl hnd
    | upper =>
      constructor <;>
        simp [runWithCheckpoint, if_neg hne, if_neg hnlt, hf, runChunksGo, if_pos h2,
          hproc, checkpointWrite, hwfail]
    | lower =>
      constructor <;>
        simp [runWithCheckpoint, if_neg hne, if_neg hnlt, hf, runChunksGo, if_pos h2,
          hproc, checkpointWrite, hwfail]

/-- An all-succeeding sweep environment. -/
def syncEnvOk : SyncEnv := ⟨fun _ _ => .ok (), fun _ => .ok (), fun _ => .ok ()⟩

/-- Witness for C1: chunk size 2 over `[0, 5)` under Upper checkpointing
writes `last_upper = 1, 3, 4` — one write per chunk. -/
theorem c1_checkpoint_per_chunk_witness :
    (runWithCheckpoint 2 .upper syncEnvOk 0 5).result = .ok () ∧
      (runWithCheckpoint 2 .upper syncEnvOk 0 5).writes
        = [⟨none, some 1⟩, ⟨none, some 3⟩, ⟨none, some 4⟩] := by
  have h := (c1_checkpoint_per_chunk 2 .upper syncEnvOk 0 5 (by decide) (by decide)).1
    (fun _ _ => rfl) (fun _ => rfl)
  refine ⟨h.1, ?_⟩
  rw [h.2.2.2.1 rfl]
  decide

/-- C4 (spec-modelled checkpoint dispatch): for `from > to`, the sweep under
Upper checkpointing returns the start > end error with no chunk invoked, no
slot processed and nothing written, while under Lower checkpointing the
range is walked in reverse: with every slot succeeding, the processed slot
order is `from-1, from-2, …, to`. -/
theorem c4_reverse_walk (cp : Nat) (env : SyncEnv) (fromSlot toSlot : Nat)
    (h : toSlot < fromSlot) :
    runWithCheckpoint cp .upper env fromSlot toSlot
        = ⟨.error .startGtEnd, [], [], []⟩ ∧
    ((∀ s, env.procSlot s = .ok ()) →
      (runWithCheckpoint cp .lower env fromSlot toSlot).result = .ok () ∧
      (runWithCheckpoint cp .lower env fromSlot toSlot).slots
          = (List.range' toSlot (fromSlot - toSlot)).reverse ∧
      ∀ i, i < fromSlot - toSlot →
        (runWithCheckpoint cp .lower env fromSlot toSlot).slots[i]?
          = some (fromSlot - 1 - i)) := by
  have hne : ¬ fromSlot = toSlot := by omega
  constructor
  · simp [runWithCheckpoint, hne, h]
  · intro hok
    have hrun : runWithCheckpoint cp .lower env fromSlot toSlot
        = ⟨.ok (), [], [], (List.range' toSlot (fromSlot - toSlot)).reverse⟩ := by
      simp only [runWithCheckpoint, if_neg hne, if_pos h, processSlotsRun,
        slotsSequence, if_pos h, processSlotsGo_success env.procSlot hok]
    have hslots : (runWithCheckpoint cp .lower env fromSlot toSlot).slots
        = (List.range' toSlot (fromSlot - toSlot)).reverse := by rw [hrun]
    refine ⟨by rw [hrun], hslots, ?_⟩
    intro i hilt
    rw [hslots]
    have hlt2 : i < ((List.range' toSlot (fromSlot - toSlot)).reverse).length := by
      simp
      omega
    rw [List.getElem?_eq_getElem hlt2]
    congr 1
    rw [List.getElem_reverse]
    rw [List.getElem_range']
    simp
    omega

/-- Witness for C4 at `from = 7, to = 4`: Upper errors with nothing
processed; Lower processes slots in the order 6, 5, 4. -/
theorem c4_reverse_walk_witness :
    runWithCheckpoint 5 .upper syncEnvOk 7 4 = ⟨.error .startGtEnd, [], [], []⟩ ∧
      (runWithCheckpoint 5 .lower syncEnvOk 7 4).slots = [6, 5, 4] := by
  have h := c4_reverse_walk 5 syncEnvOk 7 4 (by decide)
  refine ⟨h.1, ?_⟩
  rw [(h.2 (fun _ => rfl)).2.1]
  decide

end Blobscan
